import Mathlib

set_option linter.unusedSectionVars false

/-!
# Verification of the `hash-scope` layered scope containers

A shallow embedding of the two Rust types of the `hash-scope` crate:

* `ScopeMap` (src/map.rs): an insertion-ordered map from keys to per-key
  "shadow stacks" of values, together with a stack of layer-sets recording,
  per scope layer, which slot indices received a fresh shadowing entry in
  that layer.
* `ScopeSet` (src/set.rs): a thin wrapper fixing the value type to `Unit`.

Modelling conventions:

* The Rust `IndexMap<K, SmallVec<[V; 1]>>` is modelled as an association
  list `List (K × List V)`; a key's *slot index* is its position in this
  list, exactly as in `IndexMap` (entries are never removed except by
  `clear_all`, so positions are stable).
* Rust vectors push and pop at the *end*; we model each such stack as a
  Lean `List` with its top at the *head*, so Rust `push`/`pop`/`last()`
  become `cons`/`tail`/`head?`, and `iter().rev().nth(n)` becomes `get? n`.
  The layer stack is modelled the same way: the top layer is the head.
* The Rust `HashSet<usize>` of slot indices per layer is modelled as a
  `Finset ℕ` (iteration order of the hash set is irrelevant: the loops in
  `pop_layer`/`clear_top` touch each index once, and distinct indices
  address distinct slots, so the loop is a pointwise update).
* Rust `unwrap`/`expect` calls that are unreachable for well-formed states
  are modelled by total functions with a default (`Option.getD`,
  `List.tail [] = []`); well-formedness (`Wf`) is proved to be preserved
  by every operation.
-/

namespace HashScope

/-- The layered map of src/map.rs: `map` is the insertion-ordered key map
(slot index = list position, shadow stack top at the head), `layers` is the
stack of layer-sets of slot indices (top layer at the head). -/
structure ScopeMap (K : Type u) (V : Type v) where
  map : List (K × List V)
  layers : List (Finset Nat)

variable {K : Type u} {V : Type v} [DecidableEq K]

/-- `ScopeMap::new()` / `Default::default()`: empty map, one empty base layer. -/
def ScopeMap.new : ScopeMap K V := ⟨[], [∅]⟩

/-- `ScopeMap::len()`: number of distinct keys (slots) ever defined. -/
def ScopeMap.len (m : ScopeMap K V) : Nat := m.map.length

/-- `ScopeMap::is_empty()`: whether the key map holds no slots. -/
def ScopeMap.is_empty (m : ScopeMap K V) : Bool := m.map.isEmpty

/-- `ScopeMap::layer_count()`: number of active layers. -/
def ScopeMap.layer_count (m : ScopeMap K V) : Nat := m.layers.length

/-- Slot index of a key in the association list: position of the first entry
with that key (the `IndexMap` index reported by `get_full`/`entry`). -/
def slotIdx? (k : K) : List (K × List V) → Option Nat
  | [] => none
  | e :: rest => if e.1 = k then some 0 else (slotIdx? k rest).map (· + 1)

/-- Slot index of a key in a `ScopeMap`. -/
def ScopeMap.slot? (m : ScopeMap K V) (k : K) : Option Nat := slotIdx? k m.map

/-- The shadow stack stored at a slot index (empty for an out-of-range index). -/
def stackOf (l : List (K × List V)) (i : Nat) : List V :=
  ((l.get? i).map Prod.snd).getD []

/-- The shadow stack of slot `i` in a `ScopeMap`. -/
def ScopeMap.stackAt (m : ScopeMap K V) (i : Nat) : List V := stackOf m.map i

/-- `IndexMap::get` on the key map: the shadow stack of the first entry whose
key matches. -/
def lookupStack (k : K) : List (K × List V) → Option (List V)
  | [] => none
  | e :: rest => if e.1 = k then some e.2 else lookupStack k rest

/-- The top layer-set, `self.layers.last().unwrap()` (default `∅` is
unreachable for well-formed states, which always have a base layer). -/
def ScopeMap.topLayer (m : ScopeMap K V) : Finset Nat := m.layers.head?.getD ∅

/-- `ScopeMap::contains_key`: delegates to `IndexMap::contains_key`, i.e. it
only tests whether the key's slot exists, regardless of its shadow stack. -/
def ScopeMap.contains_key (m : ScopeMap K V) (k : K) : Bool :=
  (lookupStack k m.map).isSome

/-- `ScopeMap::contains_key_at_top`: the key's slot index is in the top
layer-set. -/
def ScopeMap.contains_key_at_top (m : ScopeMap K V) (k : K) : Bool :=
  match m.slot? k with
  | some i => decide (i ∈ m.topLayer)
  | none => false

/-- `ScopeMap::get`: `self.map.get(key).and_then(|v| v.last())` — the top of
the key's shadow stack, absent when the slot is missing or its stack empty. -/
def ScopeMap.get (m : ScopeMap K V) (k : K) : Option V :=
  (lookupStack k m.map).bind List.head?

/-- Pointwise stack update: applies `f` to the shadow stack of every slot
whose index (counted from `j`) satisfies `p`, leaving keys and other slots
untouched.  This models the per-index loops of `pop_layer`, `clear_top`,
and the single-slot mutations of `define`/`delete` (each loop touches each
index of a set once, and distinct indices address distinct slots). -/
def updStacks (p : Nat → Bool) (f : List V → List V) :
    Nat → List (K × List V) → List (K × List V)
  | _, [] => []
  | j, e :: rest => (if p j then (e.1, f e.2) else e) :: updStacks p f (j + 1) rest

/-- Overwrite the top of a stack (`*stack.last_mut().unwrap() = value`; the
empty case is unreachable for well-formed states). -/
def setTop (v : V) : List V → List V
  | [] => []
  | _ :: rest => v :: rest

/-- `ScopeMap::push_layer()`: push an empty layer-set. -/
def ScopeMap.push_layer (m : ScopeMap K V) : ScopeMap K V :=
  ⟨m.map, ∅ :: m.layers⟩

/-- `ScopeMap::pop_layer()`: when more than one layer exists, remove the top
layer-set and pop one value off the shadow stack of every slot index it
contains; report whether a layer was removed. -/
def ScopeMap.pop_layer (m : ScopeMap K V) : Bool × ScopeMap K V :=
  if 1 < m.layers.length then
    (true, ⟨updStacks (fun j => decide (j ∈ m.topLayer)) List.tail 0 m.map, m.layers.tail⟩)
  else
    (false, m)

/-- `ScopeMap::define(key, value)`: get-or-insert the key's slot (a new key
is appended at index `len`), then either push `value` as a fresh shadow and
record the index in the top layer-set, or overwrite the stack top in place
when the top layer already contains the index. -/
def ScopeMap.define (m : ScopeMap K V) (k : K) (v : V) : ScopeMap K V :=
  let p := match m.slot? k with
    | some i => (i, m.map)
    | none => (m.map.length, m.map ++ [(k, [])])
  if p.1 ∈ m.topLayer then
    ⟨updStacks (fun j => decide (j = p.1)) (setTop v) 0 p.2, m.layers⟩
  else
    ⟨updStacks (fun j => decide (j = p.1)) (fun s => v :: s) 0 p.2,
      insert p.1 m.topLayer :: m.layers.tail⟩

/-- `ScopeMap::delete(key)`: when the key's slot index is in the top
layer-set, remove it from the set, pop one value off the slot's stack and
return `true`; otherwise return `false` and leave the state untouched. -/
def ScopeMap.delete (m : ScopeMap K V) (k : K) : Bool × ScopeMap K V :=
  match m.slot? k with
  | some i =>
    if i ∈ m.topLayer then
      (true, ⟨updStacks (fun j => decide (j = i)) List.tail 0 m.map,
        m.topLayer.erase i :: m.layers.tail⟩)
    else
      (false, m)
  | none => (false, m)

/-- `ScopeMap::clear_top()`: drain the top layer-set, popping one value off
the stack of every slot index it held; the layer stack height is unchanged. -/
def ScopeMap.clear_top (m : ScopeMap K V) : ScopeMap K V :=
  ⟨updStacks (fun j => decide (j ∈ m.topLayer)) List.tail 0 m.map,
    ∅ :: m.layers.tail⟩

/-- `ScopeMap::clear_all()`: discard everything, reset to one empty base
layer. -/
def ScopeMap.clear_all (_ : ScopeMap K V) : ScopeMap K V := ⟨[], [∅]⟩

/-- `ScopeMap::get_parent(key, skip_count)`: among the top `skip_count`
layer-sets (top first), count those containing the key's slot index, and
return the value that far below the top of the key's shadow stack
(`stack.iter().rev().nth(c)`, which is self-limiting past the end). -/
def ScopeMap.get_parent (m : ScopeMap K V) (k : K) (skip_count : Nat) : Option V :=
  match m.slot? k with
  | some i =>
    (m.stackAt i).get? ((m.layers.take skip_count).countP (fun L => decide (i ∈ L)))
  | none => none

/-- Modelled from the spec: `ScopeMap::depth_of` is called by
`ScopeSet::depth_of` (src/set.rs) but its definition is not among the
provided sources.  Per the spec, it scans the layer stack from the top
downward, stopping at the first layer whose set contains the key's slot
index and returning the number of layers scanned before it (0 = the top
layer defines the key), absent when no layer contains the index (the key is
not visible at all) or the key has no slot. -/
def scanDepth (i : Nat) : List (Finset Nat) → Option Nat
  | [] => none
  | L :: rest => if i ∈ L then some 0 else (scanDepth i rest).map (· + 1)

/-- Modelled from the spec: the missing `ScopeMap::depth_of`, as the
top-down scan `scanDepth` applied to the key's slot index. -/
def ScopeMap.depth_of (m : ScopeMap K V) (k : K) : Option Nat :=
  match m.slot? k with
  | some i => scanDepth i m.layers
  | none => none

/-- The layered set of src/set.rs: a `ScopeMap` with unit payload. -/
structure ScopeSet (T : Type u) where
  map : ScopeMap T Unit

namespace ScopeSet

variable {T : Type u} [DecidableEq T]

/-- `ScopeSet::new()` / `Default::default()`. -/
def new : ScopeSet T := ⟨ScopeMap.new⟩

/-- `ScopeSet::len()`. -/
def len (s : ScopeSet T) : Nat := s.map.len

/-- `ScopeSet::is_empty()`. -/
def is_empty (s : ScopeSet T) : Bool := s.map.is_empty

/-- `ScopeSet::depth()`: forwards to the map's layer count. -/
def depth (s : ScopeSet T) : Nat := s.map.layer_count

/-- `ScopeSet::push_layer()`. -/
def push_layer (s : ScopeSet T) : ScopeSet T := ⟨s.map.push_layer⟩

/-- `ScopeSet::pop_layer()`. -/
def pop_layer (s : ScopeSet T) : Bool × ScopeSet T :=
  ((s.map.pop_layer).1, ⟨(s.map.pop_layer).2⟩)

/-- `ScopeSet::clear_all()`. -/
def clear_all (s : ScopeSet T) : ScopeSet T := ⟨s.map.clear_all⟩

/-- `ScopeSet::clear_top()`. -/
def clear_top (s : ScopeSet T) : ScopeSet T := ⟨s.map.clear_top⟩

/-- `ScopeSet::define(key)`: `self.map.define(key, ())`. -/
def define (s : ScopeSet T) (k : T) : ScopeSet T := ⟨s.map.define k ()⟩

/-- `ScopeSet::delete(key)`. -/
def delete (s : ScopeSet T) (k : T) : Bool × ScopeSet T :=
  ((s.map.delete k).1, ⟨(s.map.delete k).2⟩)

/-- `ScopeSet::contains(key)`: forwards to `ScopeMap::contains_key`. -/
def contains (s : ScopeSet T) (k : T) : Bool := s.map.contains_key k

/-- `ScopeSet::contains_at_top(key)`. -/
def contains_at_top (s : ScopeSet T) (k : T) : Bool := s.map.contains_key_at_top k

/-- `ScopeSet::depth_of(key)`: forwards to the (spec-modelled)
`ScopeMap::depth_of`. -/
def depth_of (s : ScopeSet T) (k : T) : Option Nat := s.map.depth_of k

end ScopeSet

/-- Per-slot shadow-depth invariant: every slot's shadow stack is exactly as
deep as the number of active layer-sets containing its index. -/
def StackInv (m : ScopeMap K V) : Prop :=
  ∀ i, i < m.map.length →
    (m.stackAt i).length = m.layers.countP (fun L => decide (i ∈ L))

/-- Well-formedness of a `ScopeMap` state: the base layer exists, keys are
distinct, every recorded slot index is in range, and the shadow-depth
invariant holds.  Every reachable state is well-formed. -/
def Wf (m : ScopeMap K V) : Prop :=
  m.layers ≠ [] ∧
  (m.map.map Prod.fst).Nodup ∧
  (∀ L ∈ m.layers, ∀ i ∈ L, i < m.map.length) ∧
  StackInv m

/-- Per-key reading of the shadow-depth invariant: each present key's shadow
stack is exactly as deep as the number of currently-active layer-sets that
contain its slot index. -/
def ShadowDepthEq (m : ScopeMap K V) : Prop :=
  ∀ k i, m.slot? k = some i →
    (m.stackAt i).length = m.layers.countP (fun L => decide (i ∈ L))

instance (m : ScopeMap K V) : Decidable (StackInv m) := by
  unfold StackInv; infer_instance

instance (m : ScopeMap K V) : Decidable (Wf m) := by
  unfold Wf; infer_instance

/-! ## Basic lemmas about the list-level helpers -/

theorem updStacks_length (p : Nat → Bool) (f : List V → List V) (j : Nat)
    (l : List (K × List V)) : (updStacks p f j l).length = l.length := by
  induction l generalizing j with
  | nil => rfl
  | cons e rest ih => simp [updStacks, ih]

theorem updStacks_get? (p : Nat → Bool) (f : List V → List V)
    (l : List (K × List V)) (j n : Nat) :
    (updStacks p f j l).get? n =
      (l.get? n).map (fun e => if p (j + n) then (e.1, f e.2) else e) := by
  induction l generalizing j n with
  | nil => simp [updStacks]
  | cons e rest ih =>
    cases n with
    | zero => simp [updStacks]
    | succ n =>
      simp only [updStacks, List.get?]
      rw [ih]
      have h : j + 1 + n = j + (n + 1) := by omega
      rw [h]

theorem updStacks_fst (p : Nat → Bool) (f : List V → List V) (j : Nat)
    (l : List (K × List V)) :
    (updStacks p f j l).map Prod.fst = l.map Prod.fst := by
  induction l generalizing j with
  | nil => rfl
  | cons e rest ih =>
    simp only [updStacks, List.map_cons, ih]
    by_cases h : p j <;> simp [h]

theorem slotIdx?_updStacks (k : K) (p : Nat → Bool) (f : List V → List V)
    (j : Nat) (l : List (K × List V)) :
    slotIdx? k (updStacks p f j l) = slotIdx? k l := by
  induction l generalizing j with
  | nil => rfl
  | cons e rest ih =>
    simp only [updStacks, slotIdx?]
    by_cases h : p j <;> simp [h, ih]

theorem slotIdx?_lt {k : K} {l : List (K × List V)} {i : Nat}
    (h : slotIdx? k l = some i) : i < l.length := by
  induction l generalizing i with
  | nil => simp [slotIdx?] at h
  | cons e rest ih =>
    simp only [slotIdx?] at h
    by_cases he : e.1 = k
    · simp [he] at h
      simp [List.length_cons]
      omega
    · simp only [he, if_neg, if_false] at h
      cases hr : slotIdx? k rest with
      | none => simp [hr] at h
      | some i' =>
        simp [hr] at h
        have := ih hr
        simp [List.length_cons]
        omega

theorem slotIdx?_get? {k : K} {l : List (K × List V)} {i : Nat}
    (h : slotIdx? k l = some i) : ∃ s, l.get? i = some (k, s) := by
  induction l generalizing i with
  | nil => simp [slotIdx?] at h
  | cons e rest ih =>
    simp only [slotIdx?] at h
    by_cases he : e.1 = k
    · simp [he] at h
      subst h
      exact ⟨e.2, by simp [← he]⟩
    · simp only [he, if_false] at h
      cases hr : slotIdx? k rest with
      | none => simp [hr] at h
      | some i' =>
        simp [hr] at h
        obtain ⟨s, hs⟩ := ih hr
        exact ⟨s, by rw [← h]; simpa using hs⟩

theorem slotIdx?_eq_none_iff {k : K} {l : List (K × List V)} :
    slotIdx? k l = none ↔ ∀ e ∈ l, e.1 ≠ k := by
  induction l with
  | nil => simp [slotIdx?]
  | cons e rest ih =>
    simp only [slotIdx?]
    by_cases he : e.1 = k <;> simp [he, ih]

theorem slotIdx?_append_some {k : K} {l : List (K × List V)} {i : Nat}
    (l' : List (K × List V)) (h : slotIdx? k l = some i) :
    slotIdx? k (l ++ l') = some i := by
  induction l generalizing i with
  | nil => simp [slotIdx?] at h
  | cons e rest ih =>
    simp only [slotIdx?, List.cons_append] at h ⊢
    by_cases he : e.1 = k
    · simpa [he] using h
    · simp only [he, if_false] at h ⊢
      cases hr : slotIdx? k rest with
      | none => simp [hr] at h
      | some i' => simp [ih hr, ← h, hr]

theorem slotIdx?_append_self {k : K} {l : List (K × List V)} (s : List V)
    (h : slotIdx? k l = none) :
    slotIdx? k (l ++ [(k, s)]) = some l.length := by
  induction l with
  | nil => simp [slotIdx?]
  | cons e rest ih =>
    simp only [slotIdx?, List.cons_append] at h ⊢
    by_cases he : e.1 = k
    · simp [he] at h
    · simp only [he, if_false] at h ⊢
      cases hr : slotIdx? k rest with
      | none => simp [ih hr, List.length_cons]
      | some i' => simp [hr] at h

theorem slotIdx?_append_ne {k k' : K} {l : List (K × List V)} (s : List V)
    (h : slotIdx? k l = none) (hne : k' ≠ k) :
    slotIdx? k (l ++ [(k', s)]) = none := by
  induction l with
  | nil => simp [slotIdx?, hne]
  | cons e rest ih =>
    simp only [slotIdx?, List.cons_append] at h ⊢
    by_cases he : e.1 = k
    · simp [he] at h
    · simp only [he, if_false] at h ⊢
      cases hr : slotIdx? k rest with
      | none => simp [ih hr]
      | some i' => simp [hr] at h

theorem lookupStack_eq_slot (k : K) (l : List (K × List V)) :
    lookupStack k l = (slotIdx? k l).map (fun i => stackOf l i) := by
  induction l with
  | nil => rfl
  | cons e rest ih =>
    simp only [lookupStack, slotIdx?]
    by_cases he : e.1 = k
    · simp [he, stackOf]
    · simp only [he, if_false, ih]
      cases hr : slotIdx? k rest with
      | none => simp
      | some i => simp [stackOf]

theorem stackOf_updStacks (p : Nat → Bool) (f : List V → List V)
    (l : List (K × List V)) (i : Nat) (h : i < l.length) :
    stackOf (updStacks p f 0 l) i =
      if p i then f (stackOf l i) else stackOf l i := by
  unfold stackOf
  rw [updStacks_get?]
  cases hg : l.get? i with
  | none =>
    have := List.get?_eq_none.1 hg
    omega
  | some e =>
    by_cases hp : p i <;> simp [hp, Nat.zero_add]

theorem stackOf_append_lt (l l' : List (K × List V)) (i : Nat)
    (h : i < l.length) : stackOf (l ++ l') i = stackOf l i := by
  unfold stackOf
  rw [List.get?_append h]

theorem stackOf_append_len (l : List (K × List V)) (k : K) (s : List V) :
    stackOf (l ++ [(k, s)]) l.length = s := by
  unfold stackOf
  rw [List.get?_append_right (Nat.le_refl _)]
  simp

theorem stackOf_eq_nil_of_ge (l : List (K × List V)) (i : Nat)
    (h : l.length ≤ i) : stackOf l i = [] := by
  unfold stackOf
  rw [List.get?_eq_none.2 h]
  rfl

theorem setTop_length (v : V) (s : List V) : (setTop v s).length = s.length := by
  cases s <;> rfl

theorem topLayer_eq {m : ScopeMap K V} {T : Finset Nat} {Ls : List (Finset Nat)}
    (h : m.layers = T :: Ls) : m.topLayer = T := by
  simp [ScopeMap.topLayer, h]

/-! ## Preservation of well-formedness by every operation -/

theorem wf_new : Wf (ScopeMap.new : ScopeMap K V) := by
  refine ⟨by simp [ScopeMap.new], by simp [ScopeMap.new], ?_, ?_⟩
  · intro L hL i hi
    simp [ScopeMap.new] at hL
    subst hL
    simp at hi
  · intro i hi
    simp [ScopeMap.new] at hi

theorem wf_clear_all (m : ScopeMap K V) : Wf m.clear_all := by
  have h : (m.clear_all : ScopeMap K V) = ScopeMap.new := rfl
  rw [h]
  exact wf_new

theorem wf_push_layer (m : ScopeMap K V) (h : Wf m) : Wf m.push_layer := by
  obtain ⟨h1, h2, h3, h4⟩ := h
  refine ⟨by simp [ScopeMap.push_layer], h2, ?_, ?_⟩
  · intro L hL i hi
    simp only [ScopeMap.push_layer] at hL
    rcases List.mem_cons.1 hL with rfl | hL
    · simp at hi
    · exact h3 L hL i hi
  · intro i hi
    have h4i := h4 i hi
    simpa [ScopeMap.push_layer, ScopeMap.stackAt, List.countP_cons] using h4i

/-- The result of draining a layer-set `T` over the slots: every stack whose
index is in `T` is popped once; this is the shared shape of `pop_layer` and
`clear_top` state updates, and it preserves the invariant parts that do not
mention the layer stack. -/
theorem wf_drain_aux (m : ScopeMap K V) (T : Finset Nat)
    (Ls rest : List (Finset Nat)) (h2 : (m.map.map Prod.fst).Nodup)
    (h3 : ∀ L ∈ m.layers, ∀ i ∈ L, i < m.map.length)
    (h4 : StackInv m) (hL : m.layers = T :: Ls)
    (hrest : ∀ L ∈ rest, ∀ i ∈ L, i < m.map.length) :
    Wf (⟨updStacks (fun j => decide (j ∈ T)) List.tail 0 m.map, rest⟩ :
        ScopeMap K V) ↔
    (rest ≠ [] ∧
      ∀ i, i < m.map.length →
        (stackOf (updStacks (fun j => decide (j ∈ T)) List.tail 0 m.map) i).length =
          rest.countP (fun L => decide (i ∈ L))) := by
  constructor
  · rintro ⟨w1, _, _, w4⟩
    refine ⟨w1, fun i hi => ?_⟩
    exact w4 i (by simpa [updStacks_length] using hi)
  · rintro ⟨w1, w4⟩
    refine ⟨w1, ?_, ?_, ?_⟩
    · have : ((updStacks (fun j => decide (j ∈ T)) List.tail 0 m.map).map
          Prod.fst).Nodup := by
        rw [updStacks_fst]; exact h2
      exact this
    · intro L hLm i hi
      have hi' : i < m.map.length := hrest L hLm i hi
      simpa [updStacks_length] using hi'
    · intro i hi
      exact w4 i (by simpa [updStacks_length] using hi)

theorem wf_pop_layer (m : ScopeMap K V) (h : Wf m) : Wf (m.pop_layer).2 := by
  obtain ⟨h1, h2, h3, h4⟩ := h
  by_cases hlen : 1 < m.layers.length
  · rcases hL : m.layers with _ | ⟨T, Ls⟩
    · exact absurd hL h1
    have hT : m.topLayer = T := topLayer_eq hL
    have hLs : 0 < Ls.length := by
      rw [hL] at hlen
      simpa using hlen
    have hpop : (m.pop_layer).2 =
        ⟨updStacks (fun j => decide (j ∈ T)) List.tail 0 m.map, Ls⟩ := by
      simp [ScopeMap.pop_layer, hlen, hT, hL, hLs]
    rw [hpop]
    rw [wf_drain_aux m T Ls Ls h2 h3 h4 hL
      (fun L hLm => h3 L (by rw [hL]; exact List.mem_cons_of_mem _ hLm))]
    refine ⟨by rintro rfl; simp at hLs, ?_⟩
    intro i hi
    have h4i := h4 i hi
    rw [hL, List.countP_cons] at h4i
    simp only [ScopeMap.stackAt] at h4i
    rw [stackOf_updStacks _ _ _ _ hi]
    by_cases hiT : i ∈ T
    · simp only [hiT, decide_True, if_true, List.length_tail]
      simp [hiT] at h4i
      omega
    · simp [hiT] at h4i ⊢
      exact h4i
  · simp only [ScopeMap.pop_layer, hlen, if_false]
    exact ⟨h1, h2, h3, h4⟩

theorem wf_clear_top (m : ScopeMap K V) (h : Wf m) : Wf m.clear_top := by
  obtain ⟨h1, h2, h3, h4⟩ := h
  rcases hL : m.layers with _ | ⟨T, Ls⟩
  · exact absurd hL h1
  have hT : m.topLayer = T := topLayer_eq hL
  have hct : m.clear_top =
      ⟨updStacks (fun j => decide (j ∈ T)) List.tail 0 m.map, ∅ :: Ls⟩ := by
    simp [ScopeMap.clear_top, hT, hL]
  rw [hct]
  rw [wf_drain_aux m T Ls (∅ :: Ls) h2 h3 h4 hL ?memb]
  case memb =>
    intro L hLm i hi
    rcases List.mem_cons.1 hLm with rfl | hLm
    · simp at hi
    · exact h3 L (by rw [hL]; exact List.mem_cons_of_mem _ hLm) i hi
  refine ⟨by simp, ?_⟩
  intro i hi
  have h4i := h4 i hi
  rw [hL, List.countP_cons] at h4i
  simp only [ScopeMap.stackAt] at h4i
  rw [stackOf_updStacks _ _ _ _ hi, List.countP_cons]
  by_cases hiT : i ∈ T
  · simp only [hiT, decide_True, if_true, List.length_tail]
    simp [hiT] at h4i
    simp
    omega
  · simp [hiT] at h4i ⊢
    exact h4i

theorem wf_delete (m : ScopeMap K V) (h : Wf m) (k : K) : Wf (m.delete k).2 := by
  obtain ⟨h1, h2, h3, h4⟩ := h
  cases hs : m.slot? k with
  | none =>
    simp only [ScopeMap.delete, hs]
    exact ⟨h1, h2, h3, h4⟩
  | some i =>
    have hilt : i < m.map.length := slotIdx?_lt hs
    by_cases hiT : i ∈ m.topLayer
    · rcases hL : m.layers with _ | ⟨T, Ls⟩
      · exact absurd hL h1
      have hT : m.topLayer = T := topLayer_eq hL
      rw [hT] at hiT
      have hdel : (m.delete k).2 =
          ⟨updStacks (fun j => decide (j = i)) List.tail 0 m.map,
            T.erase i :: Ls⟩ := by
        simp [ScopeMap.delete, hs, hT, hiT, hL]
      rw [hdel]
      refine ⟨by simp, ?_, ?_, ?_⟩
      · have : ((updStacks (fun j => decide (j = i)) List.tail 0 m.map).map
            Prod.fst).Nodup := by
          rw [updStacks_fst]; exact h2
        exact this
      · intro L hLm j hj
        have hj' : j < m.map.length := by
          rcases List.mem_cons.1 hLm with rfl | hLm
          · exact h3 T (by rw [hL]; exact List.mem_cons_self _ _) j
              (Finset.mem_of_mem_erase hj)
          · exact h3 L (by rw [hL]; exact List.mem_cons_of_mem _ hLm) j hj
        simpa [updStacks_length] using hj'
      · intro j hj
        have hj' : j < m.map.length := by simpa [updStacks_length] using hj
        have h4j := h4 j hj'
        rw [hL, List.countP_cons] at h4j
        simp only [ScopeMap.stackAt] at h4j ⊢
        rw [stackOf_updStacks _ _ _ _ hj', List.countP_cons]
        by_cases hji : j = i
        · subst hji
          simp only [decide_True, if_true, List.length_tail]
          simp [hiT] at h4j
          simp [Finset.mem_erase]
          omega
        · simp only [hji, decide_False, if_false]
          have hd : decide (j ∈ T.erase i) = decide (j ∈ T) := by
            rw [decide_eq_decide]
            simp [Finset.mem_erase, hji]
          rw [hd]
          exact h4j
    · have hdel : (m.delete k).2 = m := by
        simp [ScopeMap.delete, hs, hiT]
      rw [hdel]
      exact ⟨h1, h2, h3, h4⟩

theorem wf_define (m : ScopeMap K V) (h : Wf m) (k : K) (v : V) :
    Wf (m.define k v) := by
  obtain ⟨h1, h2, h3, h4⟩ := h
  rcases hL : m.layers with _ | ⟨T, Ls⟩
  · exact absurd hL h1
  have hT : m.topLayer = T := topLayer_eq hL
  have hTmem : T ∈ m.layers := by rw [hL]; exact List.mem_cons_self _ _
  cases hs : m.slot? k with
  | some i =>
    have hilt : i < m.map.length := slotIdx?_lt hs
    by_cases hiT : i ∈ T
    · -- redefinition in the current layer: overwrite in place
      have hdef : m.define k v =
          ⟨updStacks (fun j => decide (j = i)) (setTop v) 0 m.map, m.layers⟩ := by
        simp [ScopeMap.define, hs, hT, hiT]
      rw [hdef]
      refine ⟨h1, ?_, ?_, ?_⟩
      · have : ((updStacks (fun j => decide (j = i)) (setTop v) 0 m.map).map
            Prod.fst).Nodup := by
          rw [updStacks_fst]; exact h2
        exact this
      · intro L hLm j hj
        have hj' : j < m.map.length := h3 L hLm j hj
        simpa [updStacks_length] using hj'
      · intro j hj
        have hj' : j < m.map.length := by simpa [updStacks_length] using hj
        have h4j := h4 j hj'
        simp only [ScopeMap.stackAt] at h4j ⊢
        rw [stackOf_updStacks _ _ _ _ hj']
        by_cases hji : j = i
        · subst hji
          simp [setTop_length]
          exact h4j
        · simp only [hji, decide_False, if_false]
          exact h4j
    · -- first definition of this slot in the current layer: push a shadow
      have hdef : m.define k v =
          ⟨updStacks (fun j => decide (j = i)) (fun s => v :: s) 0 m.map,
            insert i T :: Ls⟩ := by
        simp [ScopeMap.define, hs, hT, hiT, hL]
      rw [hdef]
      refine ⟨by simp, ?_, ?_, ?_⟩
      · have : ((updStacks (fun j => decide (j = i)) (fun s => v :: s)
            0 m.map).map Prod.fst).Nodup := by
          rw [updStacks_fst]; exact h2
        exact this
      · intro L hLm j hj
        have hj' : j < m.map.length := by
          rcases List.mem_cons.1 hLm with rfl | hLm
          · rcases Finset.mem_insert.1 hj with rfl | hj
            · exact hilt
            · exact h3 T hTmem j hj
          · exact h3 L (by rw [hL]; exact List.mem_cons_of_mem _ hLm) j hj
        simpa [updStacks_length] using hj'
      · intro j hj
        have hj' : j < m.map.length := by simpa [updStacks_length] using hj
        have h4j := h4 j hj'
        rw [hL, List.countP_cons] at h4j
        simp only [ScopeMap.stackAt] at h4j ⊢
        rw [stackOf_updStacks _ _ _ _ hj', List.countP_cons]
        by_cases hji : j = i
        · subst hji
          simp only [decide_True, if_true, List.length_cons]
          simp [hiT] at h4j
          simp [Finset.mem_insert]
          omega
        · simp only [hji, decide_False, if_false]
          have hd : decide (j ∈ insert i T) = decide (j ∈ T) := by
            rw [decide_eq_decide]
            simp [Finset.mem_insert, hji]
          rw [hd]
          exact h4j
  | none =>
    have hkey : ∀ e ∈ m.map, e.1 ≠ k := slotIdx?_eq_none_iff.1 hs
    have hlenT : m.map.length ∉ T := fun hmem =>
      absurd (h3 T hTmem _ hmem) (lt_irrefl _)
    have hdef : m.define k v =
        ⟨updStacks (fun j => decide (j = m.map.length)) (fun s => v :: s) 0
            (m.map ++ [(k, [])]),
          insert m.map.length T :: Ls⟩ := by
      simp [ScopeMap.define, hs, hT, hlenT, hL]
    rw [hdef]
    have hlen1 : (m.map ++ [(k, [])]).length = m.map.length + 1 := by simp
    refine ⟨by simp, ?_, ?_, ?_⟩
    · have : ((updStacks (fun j => decide (j = m.map.length))
          (fun s => v :: s) 0 (m.map ++ [(k, [])])).map Prod.fst).Nodup := by
        rw [updStacks_fst, List.map_append]
        rw [List.nodup_append]
        refine ⟨h2, by simp, ?_⟩
        intro a ha hb
        simp at hb
        subst hb
        obtain ⟨e, he, rfl⟩ := List.mem_map.1 ha
        exact hkey e he rfl
      exact this
    · intro L hLm j hj
      have hj' : j < m.map.length + 1 := by
        rcases List.mem_cons.1 hLm with rfl | hLm
        · rcases Finset.mem_insert.1 hj with rfl | hj
          · omega
          · have := h3 T hTmem j hj
            omega
        · have := h3 L (by rw [hL]; exact List.mem_cons_of_mem _ hLm) j hj
          omega
      simpa [updStacks_length, hlen1] using hj'
    · intro j hj
      have hj1 : j < (m.map ++ [(k, [])]).length := by
        simpa [updStacks_length] using hj
      have hj' : j < m.map.length + 1 := by
        rw [hlen1] at hj1
        exact hj1
      simp only [ScopeMap.stackAt]
      rw [stackOf_updStacks _ _ _ _ hj1, List.countP_cons]
      by_cases hji : j = m.map.length
      · subst hji
        simp only [decide_True, if_true]
        rw [stackOf_append_len]
        have hLs0 : Ls.countP (fun L => decide (m.map.length ∈ L)) = 0 := by
          rw [List.countP_eq_zero]
          intro L hLm
          have : ∀ i ∈ L, i < m.map.length :=
            h3 L (by rw [hL]; exact List.mem_cons_of_mem _ hLm)
          simp only [decide_eq_true_eq]
          intro hmem
          exact absurd (this _ hmem) (lt_irrefl _)
        rw [hLs0]
        simp [Finset.mem_insert]
      · have hjlt : j < m.map.length := by omega
        simp only [hji, decide_False, if_false]
        rw [stackOf_append_lt _ _ _ hjlt]
        have h4j := h4 j hjlt
        rw [hL, List.countP_cons] at h4j
        simp only [ScopeMap.stackAt] at h4j
        have hd : decide (j ∈ insert m.map.length T) = decide (j ∈ T) := by
          rw [decide_eq_decide]
          simp [Finset.mem_insert, hji]
        rw [hd]
        exact h4j

/-! ## Further bridging lemmas -/

theorem updStacks_of_false (p : Nat → Bool) (f : List V → List V)
    (h : ∀ j, p j = false) (j : Nat) (l : List (K × List V)) :
    updStacks p f j l = l := by
  induction l generalizing j with
  | nil => rfl
  | cons e rest ih => simp [updStacks, h, ih]

theorem get_eq_slot (m : ScopeMap K V) (k : K) :
    m.get k = (m.slot? k).bind (fun i => (m.stackAt i).head?) := by
  unfold ScopeMap.get ScopeMap.slot?
  rw [lookupStack_eq_slot]
  cases slotIdx? k m.map <;> simp [ScopeMap.stackAt]

/-! ## Shape lemmas for `define` -/

theorem define_slot_of_some (m : ScopeMap K V) {k : K} (q : K) (v : V)
    {i : Nat} (hs : m.slot? k = some i) :
    (m.define k v).slot? q = m.slot? q := by
  simp only [ScopeMap.define, hs]
  by_cases hmem : i ∈ m.topLayer <;>
    simp [hmem, ScopeMap.slot?, slotIdx?_updStacks]

theorem define_slot_of_none_self (m : ScopeMap K V) {k : K} (v : V)
    (hs : m.slot? k = none) :
    (m.define k v).slot? k = some m.map.length := by
  simp only [ScopeMap.define, hs]
  by_cases hmem : m.map.length ∈ m.topLayer <;>
    simp [hmem, ScopeMap.slot?, slotIdx?_updStacks, slotIdx?_append_self _ hs]

theorem define_slot_of_none_other (m : ScopeMap K V) {k : K} (q : K) (v : V)
    (hs : m.slot? k = none) (hq : q ≠ k) :
    (m.define k v).slot? q = m.slot? q := by
  have happ : slotIdx? q (m.map ++ [(k, ([] : List V))]) = slotIdx? q m.map := by
    cases hq2 : slotIdx? q m.map with
    | some j => exact slotIdx?_append_some _ hq2
    | none => exact slotIdx?_append_ne _ hq2 (fun hkq => hq hkq.symm)
  simp only [ScopeMap.define, hs]
  by_cases hmem : m.map.length ∈ m.topLayer <;>
    simp [hmem, ScopeMap.slot?, slotIdx?_updStacks, happ]

theorem define_map_length_some (m : ScopeMap K V) {k : K} (v : V) {i : Nat}
    (hs : m.slot? k = some i) :
    (m.define k v).map.length = m.map.length := by
  simp only [ScopeMap.define, hs]
  by_cases hmem : i ∈ m.topLayer <;> simp [hmem, updStacks_length]

theorem define_map_length_none (m : ScopeMap K V) {k : K} (v : V)
    (hs : m.slot? k = none) :
    (m.define k v).map.length = m.map.length + 1 := by
  simp only [ScopeMap.define, hs]
  by_cases hmem : m.map.length ∈ m.topLayer <;>
    simp [hmem, updStacks_length]

theorem define_layers_some_top (m : ScopeMap K V) {k : K} (v : V) {i : Nat}
    (hs : m.slot? k = some i) (hmem : i ∈ m.topLayer) :
    (m.define k v).layers = m.layers := by
  simp [ScopeMap.define, hs, hmem]

theorem define_layers_some_new (m : ScopeMap K V) {k : K} (v : V) {i : Nat}
    (hs : m.slot? k = some i) (hmem : i ∉ m.topLayer) :
    (m.define k v).layers = insert i m.topLayer :: m.layers.tail := by
  simp [ScopeMap.define, hs, hmem]

theorem define_layers_none (m : ScopeMap K V) {k : K} (v : V)
    (hs : m.slot? k = none) (hmem : m.map.length ∉ m.topLayer) :
    (m.define k v).layers = insert m.map.length m.topLayer :: m.layers.tail := by
  simp [ScopeMap.define, hs, hmem]

theorem define_stack_some_top (m : ScopeMap K V) {k : K} (v : V) {i : Nat}
    (hs : m.slot? k = some i) (hmem : i ∈ m.topLayer) (j : Nat) :
    stackOf (m.define k v).map j =
      if j = i then setTop v (stackOf m.map j) else stackOf m.map j := by
  simp only [ScopeMap.define, hs, hmem, if_true]
  by_cases hj : j < m.map.length
  · rw [stackOf_updStacks _ _ _ _ hj]
    by_cases hji : j = i <;> simp [hji]
  · have hge : m.map.length ≤ j := by omega
    rw [stackOf_eq_nil_of_ge _ _ (by rw [updStacks_length]; exact hge),
      stackOf_eq_nil_of_ge _ _ hge]
    by_cases hji : j = i <;> simp [hji, setTop]

theorem define_stack_some_new (m : ScopeMap K V) {k : K} (v : V) {i : Nat}
    (hs : m.slot? k = some i) (hmem : i ∉ m.topLayer) (j : Nat) :
    stackOf (m.define k v).map j =
      if j = i then v :: stackOf m.map j else stackOf m.map j := by
  have hilt : i < m.map.length := slotIdx?_lt hs
  simp only [ScopeMap.define, hs, hmem, if_false]
  by_cases hj : j < m.map.length
  · rw [stackOf_updStacks _ _ _ _ hj]
    by_cases hji : j = i <;> simp [hji]
  · have hge : m.map.length ≤ j := by omega
    have hji : j ≠ i := by omega
    rw [stackOf_eq_nil_of_ge _ _ (by rw [updStacks_length]; exact hge),
      stackOf_eq_nil_of_ge _ _ hge]
    simp [hji]

theorem define_stack_none (m : ScopeMap K V) {k : K} (v : V)
    (hs : m.slot? k = none) (hmem : m.map.length ∉ m.topLayer) (j : Nat) :
    stackOf (m.define k v).map j =
      if j = m.map.length then v :: stackOf m.map j else stackOf m.map j := by
  simp only [ScopeMap.define, hs, hmem, if_false]
  by_cases hj : j < m.map.length + 1
  · have hj1 : j < (m.map ++ [(k, ([] : List V))]).length := by simp; omega
    rw [stackOf_updStacks _ _ _ _ hj1]
    by_cases hji : j = m.map.length
    · subst hji
      simp [stackOf_append_len, stackOf_eq_nil_of_ge m.map _ (Nat.le_refl _)]
    · have hjlt : j < m.map.length := by omega
      simp [hji, stackOf_append_lt _ _ _ hjlt]
  · have hge : (m.map ++ [(k, ([] : List V))]).length ≤ j := by simp; omega
    have hji : j ≠ m.map.length := by omega
    rw [stackOf_eq_nil_of_ge _ _ (by rw [updStacks_length]; exact hge),
      stackOf_eq_nil_of_ge _ _ (by omega)]
    simp [hji]

/-- Two states whose slot resolution agrees (up to a fresh slot holding an
empty stack at position `m.map.length`) and whose stacks agree pointwise
answer every `get` identically. -/
theorem get_congr (m' m : ScopeMap K V)
    (hslot : ∀ q : K, m'.slot? q = m.slot? q ∨
      (m.slot? q = none ∧ m'.slot? q = some m.map.length))
    (hstack : ∀ j, stackOf m'.map j = stackOf m.map j) :
    ∀ q, m'.get q = m.get q := by
  intro q
  rw [get_eq_slot, get_eq_slot]
  rcases hslot q with he | ⟨hn, hsome⟩
  · rw [he]
    cases hq : m.slot? q with
    | none => rfl
    | some j => simp [ScopeMap.stackAt, hstack]
  · rw [hn, hsome]
    simp [ScopeMap.stackAt, hstack,
      stackOf_eq_nil_of_ge m.map _ (Nat.le_refl _)]

theorem map_mk (A : List (K × List V)) (B : List (Finset Nat)) :
    (⟨A, B⟩ : ScopeMap K V).map = A := rfl

theorem slot?_mk (A : List (K × List V)) (B : List (Finset Nat)) (q : K) :
    (⟨A, B⟩ : ScopeMap K V).slot? q = slotIdx? q A := rfl

theorem stackAt_mk (A : List (K × List V)) (B : List (Finset Nat)) (j : Nat) :
    (⟨A, B⟩ : ScopeMap K V).stackAt j = stackOf A j := rfl

/-- Core of the redefinition argument: from a state `m1` that extends `m`
with exactly one fresh shadow `v1` for `k` at slot `i` inside a freshly
pushed layer, redefining `k` to `v2` overwrites the stack top in place
(no growth), and a single `pop_layer` — or a single `delete k` — returns
every query to its answer in `m`. -/
theorem redefine_core (m m1 : ScopeMap K V) (k : K) (v1 v2 : V) (i : Nat)
    (h1 : m.layers ≠ [])
    (hk : m.slot? k = some i ∨ (m.slot? k = none ∧ i = m.map.length))
    (hslotk : m1.slot? k = some i)
    (hslotq : ∀ q, q ≠ k → m1.slot? q = m.slot? q)
    (hstack1 : ∀ j, stackOf m1.map j =
      if j = i then v1 :: stackOf m.map j else stackOf m.map j)
    (hlayers1 : m1.layers = insert i (∅ : Finset Nat) :: m.layers)
    (hlenle : m.map.length ≤ m1.map.length) :
    (∀ j, (stackOf (m1.define k v2).map j).length =
      (stackOf m1.map j).length) ∧
    (m1.define k v2).get k = some v2 ∧
    ((m1.define k v2).pop_layer).1 = true ∧
    (∀ q, (((m1.define k v2).pop_layer).2).get q = m.get q) ∧
    ((m1.define k v2).delete k).1 = true ∧
    (∀ q, (((m1.define k v2).delete k).2).get q = m.get q) := by
  have htop1 : m1.topLayer = insert i ∅ := by
    simp [ScopeMap.topLayer, hlayers1]
  have hmem1 : i ∈ m1.topLayer := by
    rw [htop1]
    exact Finset.mem_insert_self _ _
  have hstack2 : ∀ j, stackOf (m1.define k v2).map j =
      if j = i then v2 :: stackOf m.map j else stackOf m.map j := by
    intro j
    rw [define_stack_some_top m1 v2 hslotk hmem1 j]
    by_cases hji : j = i
    · subst hji
      rw [hstack1]
      simp [setTop]
    · simp only [hji, if_false]
      rw [hstack1 j]
      simp [hji]
  have hslot2 : ∀ q, (m1.define k v2).slot? q = m1.slot? q :=
    fun q => define_slot_of_some m1 q v2 hslotk
  have hlayers2 : (m1.define k v2).layers = insert i ∅ :: m.layers := by
    rw [define_layers_some_top m1 v2 hslotk hmem1, hlayers1]
  have hlen2 : (m1.define k v2).map.length = m1.map.length :=
    define_map_length_some m1 v2 hslotk
  have htop2 : (m1.define k v2).topLayer = insert i ∅ := by
    simp [ScopeMap.topLayer, hlayers2]
  have hlenlayers : 1 < (m1.define k v2).layers.length := by
    rw [hlayers2]
    simp only [List.length_cons]
    have := List.length_pos.2 h1
    omega
  have hafter : ∀ p : Nat → Bool, (∀ j, p j = decide (j = i)) →
      ∀ (Ls : List (Finset Nat)) (q : K),
        (⟨updStacks p List.tail 0 (m1.define k v2).map, Ls⟩ :
          ScopeMap K V).get q = m.get q := by
    intro p hp Ls q
    refine get_congr _ m ?_ ?_ q
    · intro q'
      have hsl : (⟨updStacks p List.tail 0 (m1.define k v2).map, Ls⟩ :
          ScopeMap K V).slot? q' = m1.slot? q' := by
        rw [slot?_mk, slotIdx?_updStacks]
        exact hslot2 q'
      by_cases hq' : q' = k
      · subst hq'
        rcases hk with hsome | ⟨hnone, rfl⟩
        · left
          rw [hsl, hslotk, hsome]
        · right
          exact ⟨hnone, by rw [hsl, hslotk]⟩
      · left
        rw [hsl, hslotq q' hq']
    · intro j
      show stackOf (updStacks p List.tail 0 (m1.define k v2).map) j =
        stackOf m.map j
      by_cases hj : j < (m1.define k v2).map.length
      · rw [stackOf_updStacks _ _ _ _ hj, hp j]
        by_cases hji : j = i
        · subst hji
          simp only [decide_True, if_true]
          rw [hstack2]
          simp
        · simp only [hji, decide_False, if_false]
          rw [hstack2 j]
          simp [hji]
      · have hge : m.map.length ≤ j := by
          rw [hlen2] at hj
          omega
        rw [stackOf_eq_nil_of_ge _ _ (by rw [updStacks_length]; omega),
          stackOf_eq_nil_of_ge _ _ hge]
  have hm2slotk : (m1.define k v2).slot? k = some i := by
    rw [hslot2]
    exact hslotk
  have hm2mem : i ∈ (m1.define k v2).topLayer := by
    rw [htop2]
    exact Finset.mem_insert_self _ _
  refine ⟨?_, ?_, ?_, ?_, ?_, ?_⟩
  · intro j
    rw [hstack2 j, hstack1 j]
    by_cases hji : j = i <;> simp [hji]
  · rw [get_eq_slot, hm2slotk]
    simp [ScopeMap.stackAt, hstack2]
  · simp [ScopeMap.pop_layer, hlenlayers]
  · have hpop : ((m1.define k v2).pop_layer).2 =
        ⟨updStacks (fun j => decide (j ∈ (insert i ∅ : Finset Nat)))
          List.tail 0 (m1.define k v2).map,
          (m1.define k v2).layers.tail⟩ := by
      simp [ScopeMap.pop_layer, hlenlayers, htop2]
    intro q
    rw [hpop]
    exact hafter _ (fun j => by rw [decide_eq_decide]; simp) _ q
  · simp [ScopeMap.delete, hm2slotk, hm2mem]
  · have hdel : ((m1.define k v2).delete k).2 =
        ⟨updStacks (fun j => decide (j = i)) List.tail 0
          (m1.define k v2).map,
          (m1.define k v2).topLayer.erase i ::
            (m1.define k v2).layers.tail⟩ := by
      simp [ScopeMap.delete, hm2slotk, hm2mem]
    intro q
    rw [hdel]
    exact hafter _ (fun j => rfl) _ q

/-- Claim C4: redefining a key already defined in the current (freshly
pushed) layer overwrites the top of its shadow stack in place without
growing it: after `define k v1` then `define k v2` in the same layer, `get`
answers `v2`, and a single `pop_layer` (or a single `delete k`) removes the
layer's entire visibility contribution for every key, restoring every
query's answer to its value before the layer was entered — `v1` is not left
behind. -/
theorem redefine_in_place (m : ScopeMap K V) (h : Wf m) (k : K) (v1 v2 : V) :
    (∀ j, (stackOf ((m.push_layer.define k v1).define k v2).map j).length =
      (stackOf (m.push_layer.define k v1).map j).length) ∧
    ((m.push_layer.define k v1).define k v2).get k = some v2 ∧
    (((m.push_layer.define k v1).define k v2).pop_layer).1 = true ∧
    (∀ q, ((((m.push_layer.define k v1).define k v2).pop_layer).2).get q =
      m.get q) ∧
    (((m.push_layer.define k v1).define k v2).delete k).1 = true ∧
    (∀ q, ((((m.push_layer.define k v1).define k v2).delete k).2).get q =
      m.get q) := by
  obtain ⟨h1, h2, h3, h4⟩ := h
  have htopM : (m.push_layer).topLayer = ∅ := by
    simp [ScopeMap.push_layer, ScopeMap.topLayer]
  cases hs : m.slot? k with
  | some i =>
    have hsM : (m.push_layer).slot? k = some i := hs
    have hmemM : i ∉ (m.push_layer).topLayer := by
      rw [htopM]
      simp
    refine redefine_core m (m.push_layer.define k v1) k v1 v2 i h1
      (Or.inl hs) ?_ ?_ ?_ ?_ ?_
    · rw [define_slot_of_some (m.push_layer) k v1 hsM]
      exact hsM
    · intro q _
      rw [define_slot_of_some (m.push_layer) q v1 hsM]
      rfl
    · intro j
      exact define_stack_some_new (m.push_layer) v1 hsM hmemM j
    · rw [define_layers_some_new (m.push_layer) v1 hsM hmemM, htopM]
      rfl
    · rw [define_map_length_some (m.push_layer) v1 hsM]
      exact Nat.le_refl _
  | none =>
    have hsM : (m.push_layer).slot? k = none := hs
    have hmemM : (m.push_layer).map.length ∉ (m.push_layer).topLayer := by
      rw [htopM]
      simp
    refine redefine_core m (m.push_layer.define k v1) k v1 v2 m.map.length h1
      (Or.inr ⟨hs, rfl⟩) ?_ ?_ ?_ ?_ ?_
    · exact define_slot_of_none_self (m.push_layer) v1 hsM
    · intro q hq
      rw [define_slot_of_none_other (m.push_layer) q v1 hsM hq]
      rfl
    · intro j
      exact define_stack_none (m.push_layer) v1 hsM hmemM j
    · rw [define_layers_none (m.push_layer) v1 hsM hmemM, htopM]
      rfl
    · rw [define_map_length_none (m.push_layer) v1 hsM]
      show m.map.length ≤ m.map.length + 1
      omega

/-- Witness for C4 at a concrete state: redefining key 0 twice in a pushed
layer yields the second value, and one pop restores the base binding. -/
theorem redefine_in_place_witness :
    (((ScopeMap.new.define 0 5 : ScopeMap Nat Nat).push_layer.define 0 7).define
      0 9).get 0 = some 9 ∧
    (((((ScopeMap.new.define 0 5 : ScopeMap Nat Nat).push_layer.define
      0 7).define 0 9).pop_layer).2).get 0 =
      (ScopeMap.new.define 0 5 : ScopeMap Nat Nat).get 0 :=
  ⟨(redefine_in_place (ScopeMap.new.define 0 5) (by decide) 0 7 9).2.1,
   (redefine_in_place (ScopeMap.new.define 0 5) (by decide) 0 7 9).2.2.2.1 0⟩

/-! ## The claims -/

/-- Claim C1 (code bug): the claim states that `contains_key` (and
`ScopeSet::contains`) is true iff the key has a non-empty shadow stack, so
that a key whose definitions have all been retracted reads as absent.  The
code instead forwards to `IndexMap::contains_key`, which keeps answering
`true` for the persisting emptied slot: after `define` then `delete`, the
delete succeeds, the key's visible binding is gone (`get` is `none`, the
shadow stack is empty), yet `contains`/`contains_key` still return `true` —
contradicting the repository's own tests `set_delete` and
`set_pop_to_delete` (src/set.rs), which assert `!set.contains(...)` after
exactly these steps. -/
theorem contains_key_emptied_slot_bug :
    ((ScopeSet.new.define 0 : ScopeSet Nat).delete 0).1 = true ∧
    (((ScopeSet.new.define 0 : ScopeSet Nat).delete 0).2).contains 0 = true ∧
    (((ScopeSet.new.define 0 : ScopeSet Nat).delete 0).2).map.get 0 = none ∧
    (((ScopeSet.new.define 0 : ScopeSet Nat).delete 0).2).map.stackAt 0 = [] ∧
    ((((ScopeSet.new.define 0 : ScopeSet Nat).push_layer.define 1).pop_layer).2).contains 1
      = true := by
  decide

/-- Claim C6: shadowing round trip.  Starting from a fresh container, after
`define k 1` at the base layer, `push_layer`, `define k 2`, `get k` returns
`2`; a subsequent `pop_layer` succeeds and `get k` returns `1` again. -/
theorem shadowing_round_trip (k : K) :
    ((ScopeMap.new.define k 1).push_layer.define k 2 : ScopeMap K Nat).get k
        = some 2 ∧
    (((ScopeMap.new.define k 1).push_layer.define k 2 :
        ScopeMap K Nat).pop_layer).1 = true ∧
    ((((ScopeMap.new.define k 1).push_layer.define k 2 :
        ScopeMap K Nat).pop_layer).2).get k = some 1 := by
  have h1 : (ScopeMap.new.define k 1 : ScopeMap K Nat) =
      ⟨[(k, [1])], [{0}]⟩ := by
    simp [ScopeMap.define, ScopeMap.slot?, slotIdx?, ScopeMap.new,
      ScopeMap.topLayer, updStacks]
  have h2 : ((ScopeMap.new.define k 1).push_layer.define k 2 :
      ScopeMap K Nat) = ⟨[(k, [2, 1])], [{0}, {0}]⟩ := by
    rw [h1]
    simp [ScopeMap.define, ScopeMap.push_layer, ScopeMap.slot?, slotIdx?,
      ScopeMap.topLayer, updStacks]
  rw [h2]
  have h3 : ((⟨[(k, [2, 1])], [{0}, {0}]⟩ : ScopeMap K Nat).pop_layer) =
      (true, ⟨[(k, [1])], [{0}]⟩) := by
    simp [ScopeMap.pop_layer, ScopeMap.topLayer, updStacks]
  rw [h3]
  refine ⟨?_, rfl, ?_⟩ <;> simp [ScopeMap.get, lookupStack]

/-- Claim C8: for every container state and key, `get_parent` with a skip
count of zero coincides with `get` (the innermost visible binding, or
absent). -/
theorem get_parent_zero_eq_get (m : ScopeMap K V) (k : K) :
    m.get_parent k 0 = m.get k := by
  rw [get_eq_slot]
  unfold ScopeMap.get_parent
  cases hs : m.slot? k with
  | none => simp
  | some i => simp [List.head?_eq_getElem?]

/-- Claim C10: `push_layer` immediately followed by `pop_layer` returns
`true` from the pop and restores the container exactly: the result is the
original state (same layer stack, same slots, same shadow stacks), so every
subsequent query answers as before. -/
theorem push_pop_round_trip (m : ScopeMap K V) (h : m.layers ≠ []) :
    (m.push_layer).pop_layer = (true, m) := by
  have hlen : 1 < (m.push_layer).layers.length := by
    simp only [ScopeMap.push_layer, List.length_cons]
    have := List.length_pos.2 h
    omega
  simp only [ScopeMap.pop_layer, hlen, if_true]
  have htop : (m.push_layer).topLayer = ∅ := by
    simp [ScopeMap.push_layer, ScopeMap.topLayer]
  rw [htop]
  have hupd : updStacks (fun j => decide (j ∈ (∅ : Finset Nat))) List.tail 0
      (m.push_layer).map = m.map := by
    have : (m.push_layer).map = m.map := rfl
    rw [this]
    exact updStacks_of_false _ _ (fun j => by simp) 0 m.map
  rw [hupd]
  rfl

/-- Witness for C10 at a concrete state: the freshly created map has a
non-empty layer stack, and push-then-pop restores it. -/
theorem push_pop_round_trip_witness :
    (ScopeMap.new : ScopeMap Nat Nat).layers ≠ [] ∧
    ((ScopeMap.new : ScopeMap Nat Nat).push_layer).pop_layer =
      (true, ScopeMap.new) :=
  ⟨by decide, push_pop_round_trip ScopeMap.new (by decide)⟩

/-- Claim C2: for a key present in the map with slot index `i`,
`get_parent k skip_count` returns the value `c` positions below the top of
the key's shadow stack, where `c` is the number of layer-sets among the top
`skip_count` layers (scanned from the top) that contain `i`; when `c`
reaches the stack's length the result is absent, and below it a value is
always produced (layers that never shadowed the key do not consume skip). -/
theorem get_parent_skip_semantics (m : ScopeMap K V) (k : K)
    (i skip_count : Nat) (h : m.slot? k = some i) :
    m.get_parent k skip_count =
      (m.stackAt i).get?
        ((m.layers.take skip_count).countP (fun L => decide (i ∈ L))) ∧
    ((m.stackAt i).length ≤
        (m.layers.take skip_count).countP (fun L => decide (i ∈ L)) →
      m.get_parent k skip_count = none) ∧
    ((m.layers.take skip_count).countP (fun L => decide (i ∈ L)) <
        (m.stackAt i).length →
      (m.get_parent k skip_count).isSome = true) := by
  have hp : m.get_parent k skip_count =
      (m.stackAt i).get?
        ((m.layers.take skip_count).countP (fun L => decide (i ∈ L))) := by
    simp [ScopeMap.get_parent, h]
  refine ⟨hp, ?_, ?_⟩
  · intro hle
    rw [hp]
    exact List.get?_eq_none.2 hle
  · intro hlt
    rw [hp, List.get?_eq_get hlt]
    rfl

/-- Witness for C2 at a concrete state: key 0 has slot 0 in a two-layer map
where only the base layer shadows it. -/
theorem get_parent_skip_semantics_witness :
    (((ScopeMap.new.define 0 5).push_layer : ScopeMap Nat Nat)).get_parent 0 1
      = some 5 :=
  (get_parent_skip_semantics ((ScopeMap.new.define 0 5).push_layer) 0 0 1
    (by decide)).1

/-- Claim C3: every well-formed container has at least one layer;
`pop_layer` on a container with exactly one layer returns `false` and
changes nothing; with more than one layer it returns `true`, removes the top
layer-set, and pops exactly one value off the shadow stack of precisely the
slot indices that layer-set contains, leaving all other stacks untouched. -/
theorem pop_layer_spec (m : ScopeMap K V) (h : Wf m) :
    1 ≤ m.layer_count ∧
    (m.layer_count = 1 → m.pop_layer = (false, m)) ∧
    (1 < m.layer_count →
      (m.pop_layer).1 = true ∧
      (m.pop_layer).2.layers = m.layers.tail ∧
      (∀ i, i < m.len →
        (i ∈ m.topLayer →
          (m.pop_layer).2.stackAt i = (m.stackAt i).tail ∧
          ((m.pop_layer).2.stackAt i).length + 1 = (m.stackAt i).length) ∧
        (i ∉ m.topLayer → (m.pop_layer).2.stackAt i = m.stackAt i))) := by
  obtain ⟨h1, h2, h3, h4⟩ := h
  refine ⟨?_, ?_, ?_⟩
  · have := List.length_pos.2 h1
    unfold ScopeMap.layer_count
    omega
  · intro hone
    unfold ScopeMap.layer_count at hone
    have hnlt : ¬ 1 < m.layers.length := by omega
    simp [ScopeMap.pop_layer, hnlt]
  · intro hlen
    unfold ScopeMap.layer_count at hlen
    have hpop1 : (m.pop_layer).1 = true := by simp [ScopeMap.pop_layer, hlen]
    have hpop2 : (m.pop_layer).2 =
        ⟨updStacks (fun j => decide (j ∈ m.topLayer)) List.tail 0 m.map,
          m.layers.tail⟩ := by
      simp [ScopeMap.pop_layer, hlen]
    refine ⟨hpop1, by rw [hpop2], ?_⟩
    intro i hi
    have hi' : i < m.map.length := hi
    constructor
    · intro hiT
      have hst : (m.pop_layer).2.stackAt i = (m.stackAt i).tail := by
        rw [hpop2]
        simp only [ScopeMap.stackAt]
        rw [stackOf_updStacks _ _ _ _ hi']
        simp [hiT]
      refine ⟨hst, ?_⟩
      rw [hst]
      rcases hL : m.layers with _ | ⟨T, Ls⟩
      · exact absurd hL h1
      have hT : m.topLayer = T := topLayer_eq hL
      have h4i := h4 i hi'
      rw [hL, List.countP_cons] at h4i
      rw [hT] at hiT
      simp [hiT] at h4i
      simp only [List.length_tail]
      omega
    · intro hiT
      rw [hpop2]
      simp only [ScopeMap.stackAt]
      rw [stackOf_updStacks _ _ _ _ hi']
      simp [hiT]

/-- Witness for C3 at a concrete state: a well-formed two-layer container
whose pop succeeds. -/
theorem pop_layer_spec_witness :
    ((((ScopeMap.new.define 0 5).push_layer.define 1 6 :
        ScopeMap Nat Nat)).pop_layer).1 = true :=
  ((pop_layer_spec ((ScopeMap.new.define 0 5).push_layer.define 1 6)
    (by decide)).2.2 (by decide)).1

/-- Every well-formed state satisfies the per-key shadow-depth equality. -/
theorem shadowDepthEq_of_wf (m : ScopeMap K V) (h : Wf m) :
    ShadowDepthEq m := fun _ i hs => h.2.2.2 i (slotIdx?_lt hs)

/-- Claim C5: in every well-formed state, each present key's shadow stack is
exactly as deep as the number of active layer-sets containing its slot
index, and this equality is preserved by every operation (`push_layer`,
`pop_layer`, `define`, `delete`, `clear_top`, `clear_all`). -/
theorem shadow_depth_invariant (m : ScopeMap K V) (h : Wf m) :
    ShadowDepthEq m ∧
    ShadowDepthEq m.push_layer ∧
    ShadowDepthEq (m.pop_layer).2 ∧
    (∀ k v, ShadowDepthEq (m.define k v)) ∧
    (∀ k, ShadowDepthEq (m.delete k).2) ∧
    ShadowDepthEq m.clear_top ∧
    ShadowDepthEq m.clear_all :=
  ⟨shadowDepthEq_of_wf _ h,
   shadowDepthEq_of_wf _ (wf_push_layer m h),
   shadowDepthEq_of_wf _ (wf_pop_layer m h),
   fun k v => shadowDepthEq_of_wf _ (wf_define m h k v),
   fun k => shadowDepthEq_of_wf _ (wf_delete m h k),
   shadowDepthEq_of_wf _ (wf_clear_top m h),
   shadowDepthEq_of_wf _ (wf_clear_all m)⟩

/-- Witness for C5 at a concrete state: the equality after a `define` on a
well-formed two-layer container. -/
theorem shadow_depth_invariant_witness :
    ShadowDepthEq
      ((((ScopeMap.new.define 0 5).push_layer : ScopeMap Nat Nat)).define 1 6) :=
  (shadow_depth_invariant ((ScopeMap.new.define 0 5).push_layer)
    (by decide)).2.2.2.1 1 6

/-- Claim C7: `delete k` returns `true` — removing the key's slot index from
the top layer-set and popping exactly one value off that slot's shadow
stack, leaving every other slot untouched — if and only if the slot index is
present in the top layer-set; otherwise it returns `false` and leaves the
entire container state unchanged, so a binding still visible from an outer
layer stays intact. -/
theorem delete_spec (m : ScopeMap K V) (h : Wf m) (k : K) :
    ((m.delete k).1 = true ↔ m.contains_key_at_top k = true) ∧
    (m.contains_key_at_top k = false → m.delete k = (false, m)) ∧
    (∀ i, m.slot? k = some i → i ∈ m.topLayer →
      (m.delete k).2.layers = m.topLayer.erase i :: m.layers.tail ∧
      (m.delete k).2.stackAt i = (m.stackAt i).tail ∧
      ((m.delete k).2.stackAt i).length + 1 = (m.stackAt i).length ∧
      (∀ j, j ≠ i → (m.delete k).2.stackAt j = m.stackAt j)) := by
  obtain ⟨h1, h2, h3, h4⟩ := h
  cases hs : m.slot? k with
  | none =>
    have hd : m.delete k = (false, m) := by simp [ScopeMap.delete, hs]
    have hc : m.contains_key_at_top k = false := by
      simp [ScopeMap.contains_key_at_top, hs]
    refine ⟨by simp [hd, hc], fun _ => hd, ?_⟩
    intro i hsi
    simp at hsi
  | some i =>
    by_cases hiT : i ∈ m.topLayer
    · have hc : m.contains_key_at_top k = true := by
        simp [ScopeMap.contains_key_at_top, hs, hiT]
      have hd1 : (m.delete k).1 = true := by
        simp [ScopeMap.delete, hs, hiT]
      have hd2 : (m.delete k).2 =
          ⟨updStacks (fun j => decide (j = i)) List.tail 0 m.map,
            m.topLayer.erase i :: m.layers.tail⟩ := by
        simp [ScopeMap.delete, hs, hiT]
      have hilt : i < m.map.length := slotIdx?_lt hs
      refine ⟨by rw [hd1, hc], ?_, ?_⟩
      · intro hcf
        rw [hc] at hcf
        cases hcf
      intro i' hsi' hiT'
      have hii : i' = i := (Option.some.inj hsi').symm
      subst hii
      refine ⟨by rw [hd2], ?_, ?_, ?_⟩
      · rw [hd2, stackAt_mk, stackOf_updStacks _ _ _ _ hilt]
        simp [ScopeMap.stackAt]
      · rcases hL : m.layers with _ | ⟨T, Ls⟩
        · exact absurd hL h1
        have hT : m.topLayer = T := topLayer_eq hL
        have h4i := h4 i' hilt
        rw [hL, List.countP_cons] at h4i
        rw [hT] at hiT
        simp [hiT] at h4i
        simp only [ScopeMap.stackAt] at h4i ⊢
        rw [hd2, map_mk, stackOf_updStacks _ _ _ _ hilt]
        simp [List.length_tail]
        omega
      · intro j hji
        rw [hd2, stackAt_mk]
        by_cases hj : j < m.map.length
        · rw [stackOf_updStacks _ _ _ _ hj]
          simp [hji, ScopeMap.stackAt]
        · simp only [ScopeMap.stackAt]
          rw [stackOf_eq_nil_of_ge _ _ (by rw [updStacks_length]; omega),
            stackOf_eq_nil_of_ge _ _ (by omega)]
    · have hc : m.contains_key_at_top k = false := by
        simp [ScopeMap.contains_key_at_top, hs, hiT]
      have hd : m.delete k = (false, m) := by
        simp [ScopeMap.delete, hs, hiT]
      refine ⟨by simp [hd, hc], fun _ => hd, ?_⟩
      intro i' hsi' hiT'
      have hii : i' = i := (Option.some.inj hsi').symm
      subst hii
      exact absurd hiT' hiT

/-- Witness for C7 at a concrete state: deleting a key defined in the top
layer succeeds. -/
theorem delete_spec_witness :
    ((ScopeMap.new.define 0 5 : ScopeMap Nat Nat).delete 0).1 = true :=
  (delete_spec (ScopeMap.new.define 0 5) (by decide) 0).1.mpr (by decide)

theorem scanDepth_eq_none_iff (i : Nat) (Ls : List (Finset Nat)) :
    scanDepth i Ls = none ↔ ∀ L ∈ Ls, i ∉ L := by
  induction Ls with
  | nil => simp [scanDepth]
  | cons L rest ih =>
    by_cases hm : i ∈ L <;> simp [scanDepth, hm, ih]

theorem scanDepth_spec (i : Nat) (Ls : List (Finset Nat)) (d : Nat)
    (h : scanDepth i Ls = some d) :
    d < Ls.length ∧
    (∃ L, Ls.get? d = some L ∧ i ∈ L) ∧
    (∀ e L', e < d → Ls.get? e = some L' → i ∉ L') := by
  induction Ls generalizing d with
  | nil => simp [scanDepth] at h
  | cons L rest ih =>
    by_cases hm : i ∈ L
    · simp [scanDepth, hm] at h
      subst h
      refine ⟨by simp, ⟨L, by simp, hm⟩, ?_⟩
      intro e L' he
      omega
    · simp only [scanDepth, hm, if_false] at h
      cases hr : scanDepth i rest with
      | none => simp [hr] at h
      | some d' =>
        simp [hr] at h
        obtain ⟨hd1, ⟨L', hL', hmem⟩, hfirst⟩ := ih d' hr
        subst h
        refine ⟨by simp; omega, ⟨L', by simpa using hL', hmem⟩, ?_⟩
        intro e L'' he hget
        cases e with
        | zero =>
          simp at hget
          subst hget
          exact hm
        | succ e' =>
          simp at hget
          exact hfirst e' L'' (by omega) (by simpa using hget)

theorem depth_of_push (m : ScopeMap K V) (k : K) :
    (m.push_layer).depth_of k = (m.depth_of k).map (· + 1) := by
  have hslot : (m.push_layer).slot? k = m.slot? k := rfl
  unfold ScopeMap.depth_of
  rw [hslot]
  cases m.slot? k with
  | none => rfl
  | some i =>
    show scanDepth i ((∅ : Finset Nat) :: m.layers) = _
    simp [scanDepth]

theorem depth_of_define_self (m : ScopeMap K V) (h : Wf m) (k : K) (v : V) :
    (m.define k v).depth_of k = some 0 := by
  obtain ⟨h1, h2, h3, h4⟩ := h
  rcases hL : m.layers with _ | ⟨T, Ls⟩
  · exact absurd hL h1
  have hT : m.topLayer = T := topLayer_eq hL
  have hTmem : T ∈ m.layers := by rw [hL]; exact List.mem_cons_self _ _
  cases hs : m.slot? k with
  | some i =>
    have hslot : (m.define k v).slot? k = some i := by
      rw [define_slot_of_some m k v hs]
      exact hs
    by_cases hiT : i ∈ m.topLayer
    · have hlay : (m.define k v).layers = m.layers :=
        define_layers_some_top m v hs hiT
      unfold ScopeMap.depth_of
      rw [hslot, hlay, hL]
      rw [hT] at hiT
      simp [scanDepth, hiT]
    · have hlay : (m.define k v).layers = insert i m.topLayer :: m.layers.tail :=
        define_layers_some_new m v hs hiT
      unfold ScopeMap.depth_of
      rw [hslot, hlay]
      simp [scanDepth]
  | none =>
    have hmem : m.map.length ∉ m.topLayer := fun hmem =>
      absurd (h3 _ (by rw [hT]; exact hTmem) _ hmem) (lt_irrefl _)
    have hslot : (m.define k v).slot? k = some m.map.length :=
      define_slot_of_none_self m v hs
    have hlay : (m.define k v).layers =
        insert m.map.length m.topLayer :: m.layers.tail :=
      define_layers_none m v hs hmem
    unfold ScopeMap.depth_of
    rw [hslot, hlay]
    simp [scanDepth]

theorem depth_of_none_iff (m : ScopeMap K V) (h : Wf m) (k : K) :
    m.depth_of k = none ↔ m.get k = none := by
  obtain ⟨h1, h2, h3, h4⟩ := h
  rw [get_eq_slot]
  unfold ScopeMap.depth_of
  cases hs : m.slot? k with
  | none => simp
  | some i =>
    have hilt : i < m.map.length := slotIdx?_lt hs
    have h4i := h4 i hilt
    have hb : ((some i).bind fun j : Nat => (m.stackAt j).head?) =
        (m.stackAt i).head? := rfl
    rw [hb, scanDepth_eq_none_iff]
    constructor
    · intro hall
      have hz : m.layers.countP (fun L => decide (i ∈ L)) = 0 := by
        rw [List.countP_eq_zero]
        intro L hLm
        simpa using hall L hLm
      rw [hz] at h4i
      have hnil : m.stackAt i = [] := List.length_eq_zero.1 h4i
      simp [hnil]
    · intro hnone
      have hnil : m.stackAt i = [] := by
        cases hst : m.stackAt i with
        | nil => rfl
        | cons a rest =>
          rw [hst] at hnone
          simp at hnone
      rw [hnil] at h4i
      have hz : m.layers.countP (fun L => decide (i ∈ L)) = 0 := h4i.symm
      rw [List.countP_eq_zero] at hz
      intro L hLm
      simpa using hz L hLm

/-- Claim C9: `ScopeSet::depth_of k` (spec-modelled, since `ScopeMap`'s
`depth_of` is not among the provided sources) returns the number of layers
between the top layer and the layer that most recently defined `k` — `0`
meaning the current top layer defines it, no earlier (shallower) layer
containing the key's slot — and is absent exactly when `k` is not visible at
all; pushing `n` layers without redefining `k` increases the depth by
exactly `n`, and defining `k` again resets it to `0`. -/
theorem depth_of_spec {T : Type u} [DecidableEq T] (s : ScopeSet T)
    (h : Wf s.map) (k : T) :
    (s.depth_of k = none ↔ s.map.get k = none) ∧
    (∀ d, s.depth_of k = some d →
      d < s.depth ∧
      (∃ i L, s.map.slot? k = some i ∧ s.map.layers.get? d = some L ∧
        i ∈ L ∧
        ∀ e L', e < d → s.map.layers.get? e = some L' → i ∉ L') ∧
      ∀ n, (ScopeSet.push_layer^[n] s).depth_of k = some (d + n)) ∧
    (s.define k).depth_of k = some 0 := by
  refine ⟨depth_of_none_iff s.map h k, ?_, depth_of_define_self s.map h k ()⟩
  intro d hd
  have hscan : ∃ i, s.map.slot? k = some i ∧ scanDepth i s.map.layers = some d := by
    unfold ScopeSet.depth_of ScopeMap.depth_of at hd
    cases hs : s.map.slot? k with
    | none => rw [hs] at hd; cases hd
    | some i => rw [hs] at hd; exact ⟨i, rfl, hd⟩
  obtain ⟨i, hs, hsc⟩ := hscan
  obtain ⟨hlt, ⟨L, hL, hmem⟩, hfirst⟩ := scanDepth_spec i s.map.layers d hsc
  refine ⟨hlt, ⟨i, L, hs, hL, hmem, hfirst⟩, ?_⟩
  intro n
  induction n with
  | zero =>
    simpa using hd
  | succ n ihn =>
    rw [Function.iterate_succ_apply']
    show ((ScopeSet.push_layer^[n] s).map.push_layer).depth_of k = _
    rw [depth_of_push]
    rw [show ((ScopeSet.push_layer^[n] s).map.depth_of k) =
      (ScopeSet.push_layer^[n] s).depth_of k from rfl]
    rw [ihn]
    rfl

/-- Witness for C9 at a concrete state: after defining key 30 on a
well-formed two-layer set, its depth is 0. -/
theorem depth_of_spec_witness :
    ((((ScopeSet.new.define 10).push_layer.define 20 :
      ScopeSet Nat)).define 30).depth_of 30 = some 0 :=
  (depth_of_spec ((ScopeSet.new.define 10).push_layer.define 20)
    (by decide) 30).2.2

end HashScope
